import Mathlib

/-!
Verification of the Monkey HTTP server PolarSSL/mbedTLS network-layer plugin
(`plugins/tls/tls.c`): the non-blocking I/O adaptation layer and the
per-thread connection-context pool.

The embedding below translates the adapter functions from the C source.
The protocol engine (PolarSSL `ssl_read` / `ssl_write`) and the raw file
read (`pread`) are external collaborators: the adapter only observes their
integer return codes and, for the read path, the engine's internal buffer
fields (`in_offt`, `in_msglen`).  They are therefore abstracted: theorems
quantify over the engine result, or a concrete engine behaviour (such as
one that accepts every buffer in full) is supplied explicitly.  Machine
integers are modelled as `Int`; the byte counts involved never approach the
32/64-bit ranges in any statement below, so no wrap-around modelling is
needed.
-/

/-! ## Constants from the C source and headers -/

/-- `SENDFILE_BUF_SIZE` defaults to `SSL_MAX_CONTENT_LEN` (16384 in
PolarSSL 1.3). -/
def SENDFILE_BUF_SIZE : Nat := 16384

/-- Linux `EAGAIN`. -/
def EAGAIN : Int := 11

/-- PolarSSL 1.3 `POLARSSL_ERR_NET_WANT_READ` (-0x0052). -/
def POLARSSL_ERR_NET_WANT_READ : Int := -82

/-- PolarSSL 1.3 `POLARSSL_ERR_NET_WANT_WRITE` (-0x0054). -/
def POLARSSL_ERR_NET_WANT_WRITE : Int := -84

/-- PolarSSL 1.3 `POLARSSL_ERR_SSL_CONN_EOF` (-0x7280). -/
def POLARSSL_ERR_SSL_CONN_EOF : Int := -29312

/-! ## Engine-result translation (`handle_return`, tls.c lines 158-186)

The C function reads and writes the thread-local `errno`; we pass `errno`
explicitly and return the pair (function result, errno afterwards). -/

/-- Translation of a PolarSSL engine return code into the host's
non-blocking convention, from `handle_return` in tls.c.  In the host's
convention, would-block is encoded as `-1` with `errno = EAGAIN`, and a
hard error as `-1` with `errno ≠ EAGAIN`. -/
def handle_return (ret : Int) (errno : Int) : Int × Int :=
  if ret < 0 then
    if ret = POLARSSL_ERR_NET_WANT_READ ∨ ret = POLARSSL_ERR_NET_WANT_WRITE then
      (-1, if errno ≠ EAGAIN then EAGAIN else errno)
    else if ret = POLARSSL_ERR_SSL_CONN_EOF then
      (0, errno)
    else
      (-1, if errno = EAGAIN then 0 else errno)
  else
    (ret, errno)

/-! ## The read path (`polar_get_bytes_avail`, `mk_tls_read`) -/

/-- From `polar_get_bytes_avail` (tls.c lines 126-129): the engine's count
of decrypted-but-undelivered bytes, `ssl->in_offt == NULL ? 0 :
ssl->in_msglen`.  The pointer `in_offt` is abstracted to the Boolean
`in_offt_isNull`. -/
def polar_get_bytes_avail (in_offt_isNull : Bool) (in_msglen : Nat) : Nat :=
  if in_offt_isNull then 0 else in_msglen

/-- Return-value computation of `mk_tls_read` (tls.c lines 586-613), given
the engine's `ssl_read` return code `r` and the engine's buffer fields
after that call.  The context-resolution step (`context_get` /
`context_new`) is modelled separately by `touch` below; it does not affect
the returned count. -/
def mk_tls_read (r : Int) (errno : Int) (in_offt_isNull : Bool)
    (in_msglen : Nat) : Int :=
  let ret := (handle_return r errno).1
  if ret > 0 then
    let avail := polar_get_bytes_avail in_offt_isNull in_msglen
    if avail > 0 then ret + (avail : Int) else ret
  else
    ret

/-- `mk_tls_write` (tls.c lines 615-623): a single engine write, its result
translated by `handle_return`. -/
def mk_tls_write (engineRet : Int) (errno : Int) : Int × Int :=
  handle_return engineRet errno

/-! ## The vectored write (`mk_tls_writev`, tls.c lines 625-655) -/

/-- The gathering loop of `mk_tls_writev`: `memcpy` each iovec into the
scratch buffer in order, accumulating `used`.  Buffers are byte lists. -/
def writev_gather (bufs : List (List Int)) : List Int :=
  bufs.foldl (fun acc b => acc ++ b) []

/-- `mk_tls_writev`: gather all buffers into one scratch buffer, hand it to
the engine's `ssl_write` in a single call, translate the result.  The
scratch-buffer allocation is assumed to succeed (its failure branch returns
-1 before any engine call and is outside every claim). -/
def mk_tls_writev (engine : List Int → Int) (bufs : List (List Int))
    (errno : Int) : Int × Int :=
  handle_return (engine (writev_gather bufs)) errno

/-! ## Theorems: result translation and the read/write/writev contracts -/

theorem writev_gather_foldl (bufs : List (List Int)) (acc : List Int) :
    bufs.foldl (fun a b => a ++ b) acc = acc ++ bufs.flatten := by
  induction bufs generalizing acc with
  | nil => simp
  | cons b rest ih => simp [List.foldl_cons, ih]

/-- C3: the uniform translation of engine results: a want-read/want-write
result becomes would-block (`-1` with `errno = EAGAIN`; never a hard error,
never a zero-length success); an orderly close (`POLARSSL_ERR_SSL_CONN_EOF`)
becomes length 0; any other negative result becomes a hard error (`-1` with
`errno ≠ EAGAIN`); a non-negative result is returned as-is.  `mk_tls_write`
is exactly this translation applied to the engine's single write result. -/
theorem handle_return_translation (r e : Int) :
    ((r = POLARSSL_ERR_NET_WANT_READ ∨ r = POLARSSL_ERR_NET_WANT_WRITE) →
      handle_return r e = (-1, EAGAIN)) ∧
    (r = POLARSSL_ERR_SSL_CONN_EOF → handle_return r e = (0, e)) ∧
    (r < 0 → r ≠ POLARSSL_ERR_NET_WANT_READ →
      r ≠ POLARSSL_ERR_NET_WANT_WRITE → r ≠ POLARSSL_ERR_SSL_CONN_EOF →
      (handle_return r e).1 = -1 ∧ (handle_return r e).2 ≠ EAGAIN) ∧
    (0 ≤ r → handle_return r e = (r, e)) ∧
    mk_tls_write r e = handle_return r e := by
  refine ⟨?_, ?_, ?_, ?_, rfl⟩
  · intro h
    rcases h with h | h <;> subst h <;>
      simp [handle_return, POLARSSL_ERR_NET_WANT_READ,
        POLARSSL_ERR_NET_WANT_WRITE, EAGAIN]
  · intro h
    subst h
    simp [handle_return, POLARSSL_ERR_SSL_CONN_EOF,
      POLARSSL_ERR_NET_WANT_READ, POLARSSL_ERR_NET_WANT_WRITE]
  · intro hneg h1 h2 h3
    have : ¬ (r = POLARSSL_ERR_NET_WANT_READ ∨ r = POLARSSL_ERR_NET_WANT_WRITE) := by
      intro h; rcases h with h | h <;> [exact h1 h; exact h2 h]
    simp only [handle_return, if_pos hneg, if_neg this, if_neg h3, EAGAIN]
    by_cases he : e = 11 <;> simp [he]
  · intro hge
    have : ¬ r < 0 := not_lt.mpr hge
    simp [handle_return, this]

/-- C3 witness: the translation at concrete inputs: want-read with clean
errno, want-write with errno already EAGAIN, orderly close, a decrypt
failure code (-0x7180), and a positive byte count. -/
theorem handle_return_translation_witness :
    handle_return (-82) 0 = (-1, EAGAIN) ∧
    handle_return (-84) 11 = (-1, EAGAIN) ∧
    handle_return (-29312) 5 = (0, 5) ∧
    ((handle_return (-29056) 11).1 = -1 ∧ (handle_return (-29056) 11).2 ≠ EAGAIN) ∧
    handle_return 1400 3 = (1400, 3) :=
  ⟨(handle_return_translation (-82) 0).1 (Or.inl (by decide)),
   (handle_return_translation (-84) 11).1 (Or.inr (by decide)),
   (handle_return_translation (-29312) 5).2.1 (by decide),
   (handle_return_translation (-29056) 11).2.2.1 (by decide) (by decide)
     (by decide) (by decide),
   (handle_return_translation 1400 3).2.2.2.1 (by decide)⟩

/-- C2: when the engine delivers a positive number `r` of bytes into the
caller's buffer, `mk_tls_read` returns `r` plus the plaintext bytes still
decrypted-and-buffered inside the engine (`polar_get_bytes_avail` of the
post-read state) — in particular exactly `r` when nothing is buffered. -/
theorem mk_tls_read_reports_buffered (r e : Int) (o : Bool) (m : Nat)
    (hr : 0 < r) :
    mk_tls_read r e o m = r + (polar_get_bytes_avail o m : Int) := by
  have hnotneg : ¬ r < 0 := by omega
  have h1 : (handle_return r e).1 = r := by
    simp [handle_return, hnotneg]
  simp only [mk_tls_read, h1, if_pos hr]
  by_cases hav : polar_get_bytes_avail o m > 0
  · simp [hav]
  · have : polar_get_bytes_avail o m = 0 := by omega
    simp [this]

/-- C2 witness: 3 bytes delivered with 2 more buffered reports 5; 3 bytes
delivered with nothing buffered (`in_offt == NULL`) reports 3. -/
theorem mk_tls_read_reports_buffered_witness :
    ((0 : Int) < 3 ∧ mk_tls_read 3 0 false 2 = 3 + ((2 : Nat) : Int)) ∧
    ((0 : Int) < 3 ∧ mk_tls_read 3 11 true 7 = 3 + ((0 : Nat) : Int)) :=
  ⟨⟨by decide, by
      have h := mk_tls_read_reports_buffered 3 0 false 2 (by decide)
      simpa [polar_get_bytes_avail] using h⟩,
   ⟨by decide, by
      have h := mk_tls_read_reports_buffered 3 11 true 7 (by decide)
      simpa [polar_get_bytes_avail] using h⟩⟩

/-- C9: the vectored write gathers the scattered buffers into one
contiguous buffer equal to their concatenation in order, hands the engine
exactly that single buffer in one write call, and returns the translated
result of that single engine write. -/
theorem mk_tls_writev_concat (engine : List Int → Int)
    (bufs : List (List Int)) (e : Int) :
    writev_gather bufs = bufs.flatten ∧
    mk_tls_writev engine bufs e = handle_return (engine bufs.flatten) e := by
  have hg : writev_gather bufs = bufs.flatten := by
    simpa using writev_gather_foldl bufs []
  exact ⟨hg, by simp [mk_tls_writev, hg]⟩

/-! ## The per-thread connection-context pool (tls.c lines 471-584)

The C pool is a singly-linked list of `struct polar_context_head` nodes.
Nodes are never moved or individually freed, so a context's position in
the list is a faithful identity for the `ssl_context *` the C functions
return. -/

/-- One pool slot (`struct polar_context_head`): the bound-descriptor field
(`fd = -1` is the free sentinel) plus the engine instance, whose
per-connection session state is abstracted to a counter `sess` where `0`
stands for a freshly initialized or freshly reset session. -/
structure PoolCtx where
  fd : Int
  sess : Nat
  deriving DecidableEq

/-- `context_get` (tls.c lines 471-487): linear scan of the calling
thread's pool for the first context whose bound descriptor equals `fd`;
`none` when there is no match. -/
def context_get : Int → List PoolCtx → Option Nat
  | _, [] => none
  | fd, c :: rest =>
      if c.fd = fd then some 0 else (context_get fd rest).map (fun i => i + 1)

/-- `context_new` (tls.c lines 515-567): scan for the first free slot
(`fd == -1`) and rebind it to `fd`; if none exists, allocate a fresh,
fully-initialized context (`sess = 0`), append it, and bind it.  Returns
the position of the context that was bound together with the updated pool.
The rebind branch does not touch `sess`: the session reset happens at
release time in `context_unset`. -/
def context_new : Int → List PoolCtx → Nat × List PoolCtx
  | fd, [] => (0, [⟨fd, 0⟩])
  | fd, c :: rest =>
      if c.fd = -1 then (0, { c with fd := fd } :: rest)
      else
        let r := context_new fd rest
        (r.1 + 1, c :: r.2)

/-- `context_unset` (tls.c lines 569-584) on the single context a handle
designates: if the recorded binding matches `fd`, mark the slot free and
reset the session (`ssl_session_reset`); otherwise log the inconsistency
(second component `true`) and change nothing.  The third component is the
C return value: `0` in both branches, never fatal. -/
def context_unset (fd : Int) (c : PoolCtx) : PoolCtx × Bool × Int :=
  if c.fd = fd then (⟨-1, 0⟩, false, 0) else (c, true, 0)

/-- `release(fd, handle)` acting on a pool, the handle rendered as a
position: apply `context_unset` to the designated slot, leaving every
other slot untouched.  Returns the pool, the logged-inconsistency flag and
the C return value. -/
def release_at (fd : Int) (pool : List PoolCtx) (i : Nat) :
    List PoolCtx × Bool × Int :=
  match pool[i]? with
  | some c =>
      let u := context_unset fd c
      (pool.set i u.1, u.2.1, u.2.2)
  | none => (pool, false, 0)

/-- The close path of `mk_tls_close` (tls.c lines 709-723) over the pool:
`context_get` scans for the first context bound to `fd`; on a hit the
close notification is sent (second component `true`) and `context_unset`
is applied to that context.  Result: (pool afterwards, notified, logged
inconsistency). -/
def close_scan : Int → List PoolCtx → List PoolCtx × Bool × Bool
  | _, [] => ([], false, false)
  | fd, c :: rest =>
      if c.fd = fd then
        let u := context_unset fd c
        (u.1 :: rest, true, u.2.1)
      else
        let r := close_scan fd rest
        (c :: r.1, r.2.1, r.2.2)

/-- Observable outcome of `mk_tls_close`: the pool afterwards, whether the
protocol close notification was attempted, whether a pool inconsistency
was logged, whether the transport-level `net_close` ran, and the return
value. -/
structure CloseResult where
  pool : List PoolCtx
  notified : Bool
  logged : Bool
  net_closed : Bool
  ret : Int
  deriving DecidableEq

/-- `mk_tls_close` (tls.c lines 709-723): when a context is bound to `fd`,
send a best-effort close notification — its engine result `notifyRet` is
discarded — and release the context; in every case close the underlying
descriptor through the transport primitive `net_close` and return 0. -/
def mk_tls_close (notifyRet : Int) (fd : Int) (pool : List PoolCtx) :
    CloseResult :=
  let _ := notifyRet
  let s := close_scan fd pool
  { pool := s.1, notified := s.2.1, logged := s.2.2, net_closed := true,
    ret := 0 }

/-- The context-resolution prelude shared by the adapter I/O operations
(e.g. tls.c lines 589-593): use the bound context when one exists,
otherwise create one via `context_new`. -/
def touch (fd : Int) (pool : List PoolCtx) : List PoolCtx :=
  match context_get fd pool with
  | some _ => pool
  | none => (context_new fd pool).2

/-- One public adapter operation, as far as the pool is concerned. -/
inductive NetOp where
  | rd (fd : Int)
  | wr (fd : Int)
  | wv (fd : Int)
  | sf (fd : Int)
  | cl (fd : Int)

/-- Pool effect of one adapter operation: read, write, writev and
send_file resolve-or-create the context; close runs the close path. -/
def applyOp (pool : List PoolCtx) : NetOp → List PoolCtx
  | NetOp.rd fd => touch fd pool
  | NetOp.wr fd => touch fd pool
  | NetOp.wv fd => touch fd pool
  | NetOp.sf fd => touch fd pool
  | NetOp.cl fd => (close_scan fd pool).1

/-- The pool of one worker thread after a sequence of public adapter
operations, starting from the empty pool created at thread init. -/
def runOps (ops : List NetOp) : List PoolCtx :=
  ops.foldl applyOp []

/-- Number of contexts in the pool whose bound-descriptor field equals
`fd`. -/
def boundCount (fd : Int) (pool : List PoolCtx) : Nat :=
  pool.countP (fun c => c.fd == fd)

/-! ## Pool lemmas -/

theorem boundCount_nil (d : Int) : boundCount d [] = 0 := rfl

theorem boundCount_cons (d : Int) (c : PoolCtx) (pool : List PoolCtx) :
    boundCount d (c :: pool)
      = (if c.fd = d then 1 else 0) + boundCount d pool := by
  by_cases h : c.fd = d <;> simp [boundCount, List.countP_cons, h, Nat.add_comm]

theorem boundCount_eq_zero_of_get_none (fd : Int) (pool : List PoolCtx)
    (h : context_get fd pool = none) : boundCount fd pool = 0 := by
  induction pool with
  | nil => rfl
  | cons c rest ih =>
    by_cases hc : c.fd = fd
    · simp [context_get, hc] at h
    · have hrest : context_get fd rest = none := by
        cases hmr : context_get fd rest with
        | none => rfl
        | some j => simp [context_get, hc, hmr] at h
      rw [boundCount_cons, if_neg hc, ih hrest]

theorem context_new_nil (fd : Int) :
    context_new fd [] = (0, [⟨fd, 0⟩]) := rfl

theorem context_new_cons_free (fd : Int) (c : PoolCtx) (rest : List PoolCtx)
    (h : c.fd = -1) :
    context_new fd (c :: rest) = (0, { c with fd := fd } :: rest) := by
  simp [context_new, h]

theorem context_new_cons_used (fd : Int) (c : PoolCtx) (rest : List PoolCtx)
    (h : ¬ c.fd = -1) :
    context_new fd (c :: rest)
      = ((context_new fd rest).1 + 1, c :: (context_new fd rest).2) := by
  simp [context_new, h]

theorem boundCount_context_new_other (d fd : Int) (pool : List PoolCtx)
    (hd : d ≠ -1) (hdf : d ≠ fd) :
    boundCount d (context_new fd pool).2 = boundCount d pool := by
  induction pool with
  | nil =>
    rw [context_new_nil]
    simp [boundCount, List.countP_cons, Ne.symm hdf]
  | cons c rest ih =>
    by_cases hfree : c.fd = -1
    · rw [context_new_cons_free fd c rest hfree, boundCount_cons,
        boundCount_cons]
      have h1 : ¬ ({ c with fd := fd } : PoolCtx).fd = d := by
        simp [Ne.symm hdf]
      have h2 : ¬ c.fd = d := by rw [hfree]; exact Ne.symm hd
      rw [if_neg h1, if_neg h2]
    · rw [context_new_cons_used fd c rest hfree, boundCount_cons,
        boundCount_cons, ih]

theorem boundCount_context_new_self (fd : Int) (pool : List PoolCtx)
    (hfd : fd ≠ -1) :
    boundCount fd (context_new fd pool).2 ≤ boundCount fd pool + 1 := by
  induction pool with
  | nil =>
    rw [context_new_nil]
    simp [boundCount, List.countP_cons]
  | cons c rest ih =>
    by_cases hfree : c.fd = -1
    · rw [context_new_cons_free fd c rest hfree, boundCount_cons,
        boundCount_cons]
      have h1 : ({ c with fd := fd } : PoolCtx).fd = fd := rfl
      have h2 : ¬ c.fd = fd := by rw [hfree]; exact Ne.symm hfd
      rw [if_pos h1, if_neg h2]
      omega
    · rw [context_new_cons_used fd c rest hfree, boundCount_cons,
        boundCount_cons]
      split <;> omega

theorem boundCount_context_new_pos (fd : Int) (pool : List PoolCtx) :
    0 < boundCount fd (context_new fd pool).2 := by
  induction pool with
  | nil =>
    rw [context_new_nil]
    simp [boundCount, List.countP_cons]
  | cons c rest ih =>
    by_cases hfree : c.fd = -1
    · rw [context_new_cons_free fd c rest hfree, boundCount_cons]
      have h1 : ({ c with fd := fd } : PoolCtx).fd = fd := rfl
      rw [if_pos h1]
      omega
    · rw [context_new_cons_used fd c rest hfree, boundCount_cons]
      split <;> omega

theorem close_scan_cons_hit (fd : Int) (c : PoolCtx) (rest : List PoolCtx)
    (h : c.fd = fd) :
    close_scan fd (c :: rest) = ((⟨-1, 0⟩ : PoolCtx) :: rest, true, false) := by
  simp [close_scan, context_unset, h]

theorem close_scan_cons_miss (fd : Int) (c : PoolCtx) (rest : List PoolCtx)
    (h : ¬ c.fd = fd) :
    close_scan fd (c :: rest)
      = (c :: (close_scan fd rest).1, (close_scan fd rest).2.1,
         (close_scan fd rest).2.2) := by
  simp [close_scan, h]

theorem boundCount_close_scan_le (d fd : Int) (pool : List PoolCtx)
    (hd : d ≠ -1) :
    boundCount d (close_scan fd pool).1 ≤ boundCount d pool := by
  induction pool with
  | nil => simp [close_scan]
  | cons c rest ih =>
    by_cases hc : c.fd = fd
    · rw [close_scan_cons_hit fd c rest hc, boundCount_cons, boundCount_cons]
      have h1 : ¬ ((⟨-1, 0⟩ : PoolCtx).fd = d) := fun h => hd (by
        simpa using h.symm)
      rw [if_neg h1]
      split <;> omega
    · rw [close_scan_cons_miss fd c rest hc, boundCount_cons, boundCount_cons]
      split <;> omega

theorem close_scan_length (fd : Int) (pool : List PoolCtx) :
    (close_scan fd pool).1.length = pool.length := by
  induction pool with
  | nil => rfl
  | cons c rest ih =>
    by_cases hc : c.fd = fd
    · rw [close_scan_cons_hit fd c rest hc]
      simp
    · rw [close_scan_cons_miss fd c rest hc]
      simp [ih]

theorem close_scan_free_pos (fd : Int) (pool : List PoolCtx)
    (h : 0 < boundCount fd pool) :
    0 < boundCount (-1) (close_scan fd pool).1 := by
  induction pool with
  | nil => simp [boundCount] at h
  | cons c rest ih =>
    by_cases hc : c.fd = fd
    · rw [close_scan_cons_hit fd c rest hc, boundCount_cons]
      have h1 : ((⟨-1, 0⟩ : PoolCtx).fd = (-1 : Int)) := rfl
      rw [if_pos h1]
      omega
    · rw [close_scan_cons_miss fd c rest hc, boundCount_cons]
      rw [boundCount_cons, if_neg hc] at h
      have := ih (by omega)
      split <;> omega

theorem context_new_length_of_free (fd : Int) (pool : List PoolCtx)
    (h : 0 < boundCount (-1) pool) :
    (context_new fd pool).2.length = pool.length := by
  induction pool with
  | nil => simp [boundCount] at h
  | cons c rest ih =>
    by_cases hfree : c.fd = -1
    · rw [context_new_cons_free fd c rest hfree]
      simp
    · rw [context_new_cons_used fd c rest hfree]
      rw [boundCount_cons, if_neg hfree] at h
      simp [ih (by omega)]

theorem set_self_of_getElem (pool : List PoolCtx) (i : Nat) (c : PoolCtx)
    (h : pool[i]? = some c) : pool.set i c = pool := by
  induction pool generalizing i with
  | nil => simp at h
  | cons a rest ih =>
    cases i with
    | zero =>
      simp at h
      simp [h]
    | succ j =>
      simp at h
      simp [ih j h]

theorem close_scan_of_get (fd : Int) (pool : List PoolCtx) :
    ∀ i, context_get fd pool = some i →
      (close_scan fd pool).1 = pool.set i ⟨-1, 0⟩ ∧
      (close_scan fd pool).2.1 = true ∧ (close_scan fd pool).2.2 = false := by
  induction pool with
  | nil => intro i h; simp [context_get] at h
  | cons c rest ih =>
    intro i h
    by_cases hc : c.fd = fd
    · have h0 : i = 0 := by
        simp [context_get, hc] at h
        omega
      subst h0
      rw [close_scan_cons_hit fd c rest hc]
      simp
    · cases hmr : context_get fd rest with
      | none => simp [context_get, hc, hmr] at h
      | some j =>
        have hj := ih j hmr
        have hij : i = j + 1 := by
          simp [context_get, hc, hmr] at h
          omega
        subst hij
        rw [close_scan_cons_miss fd c rest hc]
        simp [hj.1, hj.2.1, hj.2.2]

theorem close_scan_of_get_none (fd : Int) (pool : List PoolCtx)
    (h : context_get fd pool = none) :
    (close_scan fd pool).1 = pool ∧ (close_scan fd pool).2.1 = false ∧
      (close_scan fd pool).2.2 = false := by
  induction pool with
  | nil => exact ⟨rfl, rfl, rfl⟩
  | cons c rest ih =>
    by_cases hc : c.fd = fd
    · simp [context_get, hc] at h
    · have hrest : context_get fd rest = none := by
        cases hmr : context_get fd rest with
        | none => rfl
        | some j => simp [context_get, hc, hmr] at h
      have hr := ih hrest
      rw [close_scan_cons_miss fd c rest hc]
      simp [hr.1, hr.2.1, hr.2.2]

/-! ## Theorems: the pool claims -/

/-- C6: `release(fd, handle)` verifies the handle's recorded binding: on a
match the slot is marked free with its session state reset and nothing is
logged; on a mismatch the inconsistency is logged and both the context and
the rest of the pool are left completely unchanged; the return value is 0
in both cases (defensive, never fatal). -/
theorem release_at_spec (fd : Int) (pool : List PoolCtx) (i : Nat)
    (c : PoolCtx) (h : pool[i]? = some c) :
    (c.fd = fd → release_at fd pool i = (pool.set i ⟨-1, 0⟩, false, 0)) ∧
    (c.fd ≠ fd → release_at fd pool i = (pool, true, 0)) := by
  constructor
  · intro hm
    simp [release_at, h, context_unset, hm]
  · intro hm
    simp [release_at, h, context_unset, hm, set_self_of_getElem pool i c h]

/-- C6 witness: releasing descriptor 5 against the matching slot (session
state 3) frees and resets it without logging; releasing descriptor 5
against the slot bound to 9 logs the inconsistency and leaves the pool —
including that slot's session state 4 — untouched; both return 0. -/
theorem release_at_spec_witness :
    release_at 5 [⟨5, 3⟩, ⟨9, 4⟩] 0 = ([⟨5, 3⟩, ⟨9, 4⟩].set 0 ⟨-1, 0⟩, false, 0) ∧
    release_at 5 [⟨5, 3⟩, ⟨9, 4⟩] 1 = ([⟨5, 3⟩, ⟨9, 4⟩], true, 0) :=
  ⟨(release_at_spec 5 [⟨5, 3⟩, ⟨9, 4⟩] 0 ⟨5, 3⟩ (by decide)).1 (by decide),
   (release_at_spec 5 [⟨5, 3⟩, ⟨9, 4⟩] 1 ⟨9, 4⟩ (by decide)).2 (by decide)⟩

/-- C10 counterexample: in the pool `[bound to 5, free]`, `acquire(5)`
rebinds the free slot at position 1, but `get(5)` then returns the context
at position 0 — not the context acquire produced.  (This pool state is
reachable, e.g. by read(5), read(6), close(6); the public operations only
reach `acquire` after `get` misses, so they never exhibit it.) -/
theorem acquire_get_counterexample :
    context_get 5 (context_new 5 [⟨5, 0⟩, ⟨-1, 0⟩]).2 ≠
      some (context_new 5 [⟨5, 0⟩, ⟨-1, 0⟩]).1 := by
  decide

/-- C10 amended: for every descriptor and every pool state in which no
context is bound to `fd` (`get(fd)` misses — which is the case whenever
the public operations invoke `acquire`), `acquire(fd)` followed
immediately by `get(fd)` returns the very context `acquire` produced. -/
theorem acquire_then_get (fd : Int) (pool : List PoolCtx)
    (h : context_get fd pool = none) :
    context_get fd (context_new fd pool).2 = some (context_new fd pool).1 := by
  induction pool with
  | nil => simp [context_new, context_get]
  | cons c rest ih =>
    by_cases hc : c.fd = fd
    · simp [context_get, hc] at h
    · have hrest : context_get fd rest = none := by
        cases hmr : context_get fd rest with
        | none => rfl
        | some j => simp [context_get, hc, hmr] at h
      by_cases hfree : c.fd = -1
      · rw [context_new_cons_free fd c rest hfree]
        simp [context_get]
      · rw [context_new_cons_used fd c rest hfree]
        simp [context_get, hc, ih hrest]

/-- C10 amended witness: on the empty pool (where `get(7)` misses),
acquire(7) appends a context at position 0 and `get(7)` returns it. -/
theorem acquire_then_get_witness :
    context_get 7 ([] : List PoolCtx) = none ∧
    context_get 7 (context_new 7 ([] : List PoolCtx)).2
      = some (context_new 7 ([] : List PoolCtx)).1 :=
  ⟨by decide, acquire_then_get 7 [] (by decide)⟩

theorem boundCount_touch_le_one (d fd : Int) (pool : List PoolCtx)
    (hd : d ≠ -1) (hinv : boundCount d pool ≤ 1) :
    boundCount d (touch fd pool) ≤ 1 := by
  cases hg : context_get fd pool with
  | some i => simpa [touch, hg] using hinv
  | none =>
    rw [show touch fd pool = (context_new fd pool).2 from by simp [touch, hg]]
    by_cases hdf : d = fd
    · subst hdf
      have h0 := boundCount_eq_zero_of_get_none d pool hg
      have h1 := boundCount_context_new_self d pool hd
      omega
    · rw [boundCount_context_new_other d fd pool hd hdf]
      exact hinv

theorem runOps_inv (ops : List NetOp) :
    ∀ pool, (∀ d, d ≠ -1 → boundCount d pool ≤ 1) →
      ∀ d, d ≠ -1 → boundCount d (List.foldl applyOp pool ops) ≤ 1 := by
  induction ops with
  | nil =>
    intro pool h d hd
    simpa using h d hd
  | cons op rest ih =>
    intro pool h d hd
    rw [List.foldl_cons]
    refine ih (applyOp pool op) ?_ d hd
    intro d2 hd2
    cases op with
    | rd fd => exact boundCount_touch_le_one d2 fd pool hd2 (h d2 hd2)
    | wr fd => exact boundCount_touch_le_one d2 fd pool hd2 (h d2 hd2)
    | wv fd => exact boundCount_touch_le_one d2 fd pool hd2 (h d2 hd2)
    | sf fd => exact boundCount_touch_le_one d2 fd pool hd2 (h d2 hd2)
    | cl fd =>
      exact le_trans (boundCount_close_scan_le d2 fd pool hd2) (h d2 hd2)

/-- C5: in every pool state reachable from the empty pool by any sequence
of the public adapter operations, at most one context has its
bound-descriptor field equal to any given descriptor (the sentinel value
-1 marks a free slot and is not a binding). -/
theorem pool_binding_unique (ops : List NetOp) (d : Int) (hd : d ≠ -1) :
    boundCount d (runOps ops) ≤ 1 :=
  runOps_inv ops [] (fun d2 _ => by simp [boundCount]) d hd

/-- C5 witness: after read(5), write(5), close(5), read(5) the pool binds
descriptor 5 at most once. -/
theorem pool_binding_unique_witness :
    (5 : Int) ≠ -1 ∧
    boundCount 5 (runOps [NetOp.rd 5, NetOp.wr 5, NetOp.cl 5, NetOp.rd 5]) ≤ 1 :=
  ⟨by decide,
   pool_binding_unique [NetOp.rd 5, NetOp.wr 5, NetOp.cl 5, NetOp.rd 5] 5
     (by decide)⟩

/-- C7: after acquire(fd1), close(fd1), acquire(fd2), the pool has exactly
the size it had after the first acquire: the slot freed by the close is
rebound rather than a new context being allocated. -/
theorem freed_slot_reuse (pool : List PoolCtx) (fd1 fd2 : Int) :
    (context_new fd2 (mk_tls_close 0 fd1 (context_new fd1 pool).2).pool).2.length
      = (context_new fd1 pool).2.length := by
  have h1 : 0 < boundCount fd1 (context_new fd1 pool).2 :=
    boundCount_context_new_pos fd1 pool
  have hpool : (mk_tls_close 0 fd1 (context_new fd1 pool).2).pool
      = (close_scan fd1 (context_new fd1 pool).2).1 := rfl
  rw [hpool, context_new_length_of_free fd2 _ (close_scan_free_pos fd1 _ h1)]
  exact close_scan_length fd1 _

/-- C8: close(fd) always runs the transport-level descriptor close and
returns 0, whether or not a context is bound; its outcome is independent
of the close-notification result, which is discarded; when a context is
bound to `fd`, the notification is attempted and that context is released
(first bound slot freed and session reset) with no inconsistency logged;
when none is bound, nothing is notified, no pool inconsistency is logged,
and the pool is unchanged. -/
theorem mk_tls_close_spec (nr fd : Int) (pool : List PoolCtx) :
    (mk_tls_close nr fd pool).net_closed = true ∧
    (mk_tls_close nr fd pool).ret = 0 ∧
    (∀ nr2, mk_tls_close nr fd pool = mk_tls_close nr2 fd pool) ∧
    (∀ i, context_get fd pool = some i →
      (mk_tls_close nr fd pool).notified = true ∧
      (mk_tls_close nr fd pool).logged = false ∧
      (mk_tls_close nr fd pool).pool = pool.set i ⟨-1, 0⟩) ∧
    (context_get fd pool = none →
      (mk_tls_close nr fd pool).notified = false ∧
      (mk_tls_close nr fd pool).logged = false ∧
      (mk_tls_close nr fd pool).pool = pool) := by
  refine ⟨rfl, rfl, fun nr2 => rfl, ?_, ?_⟩
  · intro i h
    have hs := close_scan_of_get fd pool i h
    exact ⟨hs.2.1, hs.2.2, hs.1⟩
  · intro h
    have hs := close_scan_of_get_none fd pool h
    exact ⟨hs.2.1, hs.2.2, hs.1⟩

/-- C8 witness: closing descriptor 5 (bound at position 0, session state 2)
notifies, frees that slot, logs nothing, closes the transport and returns
0; closing descriptor 9 with no bound context still closes the transport,
returns 0, and neither notifies nor logs. -/
theorem mk_tls_close_spec_witness :
    ((mk_tls_close 0 5 [⟨5, 2⟩, ⟨7, 0⟩]).notified = true ∧
     (mk_tls_close 0 5 [⟨5, 2⟩, ⟨7, 0⟩]).logged = false ∧
     (mk_tls_close 0 5 [⟨5, 2⟩, ⟨7, 0⟩]).pool = [⟨5, 2⟩, ⟨7, 0⟩].set 0 ⟨-1, 0⟩) ∧
    ((mk_tls_close 0 9 [⟨5, 2⟩]).net_closed = true ∧
     (mk_tls_close 0 9 [⟨5, 2⟩]).ret = 0 ∧
     (mk_tls_close 0 9 [⟨5, 2⟩]).notified = false ∧
     (mk_tls_close 0 9 [⟨5, 2⟩]).logged = false ∧
     (mk_tls_close 0 9 [⟨5, 2⟩]).pool = [⟨5, 2⟩]) :=
  ⟨(mk_tls_close_spec 0 5 [⟨5, 2⟩, ⟨7, 0⟩]).2.2.2.1 0 (by decide),
   (mk_tls_close_spec 0 9 [⟨5, 2⟩]).1,
   (mk_tls_close_spec 0 9 [⟨5, 2⟩]).2.1,
   (mk_tls_close_spec 0 9 [⟨5, 2⟩]).2.2.2.2 (by decide)⟩

/-! ## `mk_tls_send_file` (tls.c lines 657-707) -/

/-- Observable outcome of the send-file loop: the final loop `ret`, the
cumulative `sent`, the final `*file_offset`, the number of `pread` calls
performed, and the concatenation of all buffers handed to the engine's
`ssl_write`. -/
structure SendFileState where
  ret : Int
  sent : Int
  offset : Nat
  reads : Nat
  handed : List Int
  deriving DecidableEq

/-- The do/while loop of `mk_tls_send_file`.  `pread` is modelled on an
in-memory file (a byte list): it returns the at-most-`SENDFILE_BUF_SIZE`
bytes at `offset` without moving any cursor and never fails, so the
`used < 0` branch of the C code is unreachable here.  `engine` is the
`ssl_write` collaborator.  `fuel` bounds the recursion; the wrapper passes
`file.length + 1`, which is never exhausted because every continuing
iteration has `offset < file.length` and strictly advances `offset`. -/
def send_file_loop (engine : List Int → Int) (file : List Int) :
    Nat → Nat → Int → Int → Nat → List Int → SendFileState
  | 0, offset, _, sent, reads, handed =>
      ⟨-1, sent, offset, reads, handed⟩
  | fuel + 1, offset, remain, sent, reads, handed =>
      let chunk := (file.drop offset).take SENDFILE_BUF_SIZE
      let used := chunk.length
      if used = 0 then
        ⟨0, sent, offset, reads + 1, handed⟩
      else
        let wbuf :=
          if remain > 0 then
            chunk.take (if (used : Int) < remain then used else remain.toNat)
          else chunk
        let ret := engine wbuf
        if ret > 0 then
          send_file_loop engine file fuel (offset + ret.toNat)
            (if remain > 0 then remain - ret else remain)
            (sent + ret) (reads + 1) (handed ++ wbuf)
        else
          ⟨ret, sent, offset, reads + 1, handed ++ wbuf⟩

/-- `mk_tls_send_file` (tls.c lines 657-707): run the
pread-clamp-encrypt-send loop starting at `*file_offset` with
`remain = file_count` and `sent = 0`, then return the cumulative bytes
sent when positive, and otherwise the translated result of the final
attempt.  The scratch-buffer allocation is assumed to succeed. -/
def mk_tls_send_file (engine : List Int → Int) (file : List Int)
    (file_offset : Nat) (file_count : Nat) (errno : Int) : SendFileState :=
  let st := send_file_loop engine file (file.length + 1) file_offset
      (file_count : Int) 0 0 []
  { st with
    ret := if st.sent > 0 then st.sent else (handle_return st.ret errno).1 }

/-- The engine behaviour in which every `ssl_write` consumes its whole
buffer. -/
def acceptAll : List Int → Int := fun b => (b.length : Int)

/-- C1: evaluation exhibiting the over-send.  With a 6-byte file at offset
0, `file_count = 3`, and an engine that accepts every buffer in full,
`mk_tls_send_file` hands all 6 plaintext bytes to the engine's send step
and returns 6: the clamp `used < remain ? used : remain` stops applying
once `remain` reaches 0, and the unclamped `else` branch then sends the
rest of the file. -/
theorem send_file_exceeds_count :
    (mk_tls_send_file acceptAll [10, 11, 12, 13, 14, 15] 0 3 0).handed
      = [10, 11, 12, 13, 14, 15] ∧
    (mk_tls_send_file acceptAll [10, 11, 12, 13, 14, 15] 0 3 0).ret = 6 := by
  decide

/-- C4 counterexample: with `file_count = 0` on a 3-byte file and an
engine that accepts every buffer, sendFile reads from the file, hands its
3 bytes to the engine, and returns 3 — not zero bytes sent, not return
value 0, and not zero reads. -/
theorem send_file_zero_count_counterexample :
    (mk_tls_send_file acceptAll [7, 7, 7] 0 0 0).ret ≠ 0 ∧
    (mk_tls_send_file acceptAll [7, 7, 7] 0 0 0).reads ≠ 0 ∧
    (mk_tls_send_file acceptAll [7, 7, 7] 0 0 0).handed ≠ [] := by
  decide

theorem take_append_drop_length (xs : List Int) (n : Nat) :
    xs.take n ++ xs.drop (xs.take n).length = xs := by
  induction xs generalizing n with
  | nil => simp
  | cons x rest ih =>
    cases n with
    | zero => simp
    | succ m =>
      simp only [List.take_succ_cons, List.length_cons, List.drop_succ_cons,
        List.cons_append]
      rw [ih]

theorem send_file_loop_accept_all (file : List Int) :
    ∀ fuel offset sent reads handed,
      offset ≤ file.length → file.length - offset < fuel →
      (send_file_loop acceptAll file fuel offset 0 sent reads handed).ret
          = 0 ∧
      (send_file_loop acceptAll file fuel offset 0 sent reads handed).sent
          = sent + ((file.length - offset : Nat) : Int) ∧
      (send_file_loop acceptAll file fuel offset 0 sent reads handed).offset
          = file.length ∧
      reads <
        (send_file_loop acceptAll file fuel offset 0 sent reads handed).reads ∧
      (send_file_loop acceptAll file fuel offset 0 sent reads handed).handed
          = handed ++ file.drop offset := by
  intro fuel
  induction fuel with
  | zero =>
    intro offset sent reads handed hle hf
    omega
  | succ fuel ih =>
    intro offset sent reads handed hle hf
    have hchunklen : ((file.drop offset).take SENDFILE_BUF_SIZE).length
        = min SENDFILE_BUF_SIZE (file.length - offset) := by
      simp [List.length_take, List.length_drop]
    by_cases hc : ((file.drop offset).take SENDFILE_BUF_SIZE).length = 0
    · have hoff : offset = file.length := by
        rw [hchunklen] at hc
        simp [SENDFILE_BUF_SIZE] at hc
        omega
      have hdrop : file.drop offset = [] := by
        apply List.eq_nil_of_length_eq_zero
        rw [List.length_drop]
        omega
      simp only [send_file_loop]
      rw [if_pos hc]
      refine ⟨rfl, ?_, hoff, Nat.lt_succ_self reads, ?_⟩
      · have h0 : file.length - offset = 0 := by omega
        simp [h0]
      · simp [hdrop]
    · have hcpos : 0 < ((file.drop offset).take SENDFILE_BUF_SIZE).length :=
        Nat.pos_of_ne_zero hc
      have hposInt :
          (0 : Int) < (((file.drop offset).take SENDFILE_BUF_SIZE).length : Int) := by
        exact_mod_cast hcpos
      simp only [send_file_loop, gt_iff_lt, lt_self_iff_false, if_false,
        acceptAll]
      rw [if_neg hc, if_pos hposInt]
      have htn : ((((file.drop offset).take SENDFILE_BUF_SIZE).length : Int)).toNat
          = ((file.drop offset).take SENDFILE_BUF_SIZE).length := Int.toNat_natCast _
      rw [htn]
      have hcle : ((file.drop offset).take SENDFILE_BUF_SIZE).length
          ≤ file.length - offset := by
        rw [hchunklen]; omega
      have hih := ih (offset + ((file.drop offset).take SENDFILE_BUF_SIZE).length)
        (sent + (((file.drop offset).take SENDFILE_BUF_SIZE).length : Int))
        (reads + 1) (handed ++ (file.drop offset).take SENDFILE_BUF_SIZE)
        (by omega) (by omega)
      obtain ⟨hret, hsent, hoff2, hreads, hhand⟩ := hih
      refine ⟨hret, ?_, hoff2, by omega, ?_⟩
      · rw [hsent]
        have hsub : ((file.drop offset).take SENDFILE_BUF_SIZE).length
            + (file.length
                - (offset + ((file.drop offset).take SENDFILE_BUF_SIZE).length))
            = file.length - offset := by omega
        omega
      · rw [hhand, List.append_assoc]
        have hdd : file.drop
              (offset + ((file.drop offset).take SENDFILE_BUF_SIZE).length)
            = (file.drop offset).drop
                ((file.drop offset).take SENDFILE_BUF_SIZE).length := by
          rw [List.drop_drop]
        rw [hdd, take_append_drop_length]

/-- C4 amended: sendFile with `file_count = 0` always performs at least
one read from the file; with an engine that accepts every buffer it hands
every byte from the offset to end-of-file to the engine and returns their
number — 0 only when the file has no bytes at the offset, and even then a
read occurs. -/
theorem send_file_zero_count_sends_rest (file : List Int) (offset : Nat)
    (e : Int) (h : offset ≤ file.length) :
    (mk_tls_send_file acceptAll file offset 0 e).ret
      = ((file.length - offset : Nat) : Int) ∧
    (mk_tls_send_file acceptAll file offset 0 e).handed = file.drop offset ∧
    1 ≤ (mk_tls_send_file acceptAll file offset 0 e).reads := by
  obtain ⟨hret, hsent, hoff, hreads, hhand⟩ :=
    send_file_loop_accept_all file (file.length + 1) offset 0 0 [] h (by omega)
  refine ⟨?_, ?_, ?_⟩
  · simp only [mk_tls_send_file, Nat.cast_zero]
    rw [hsent, hret]
    simp only [zero_add]
    by_cases h0 : file.length - offset = 0
    · simp [h0, handle_return]
    · have hpos : (0 : Int) < ((file.length - offset : Nat) : Int) := by
        omega
      rw [if_pos hpos]
  · simp only [mk_tls_send_file, Nat.cast_zero]
    rw [hhand]
    simp
  · simp only [mk_tls_send_file, Nat.cast_zero]
    omega

/-- C4 amended witness: on the 2-byte file `[5, 6]` at offset 1 with
`file_count = 0`, sendFile returns 1, hands byte `6` to the engine, and
performs at least one read. -/
theorem send_file_zero_count_sends_rest_witness :
    ((1 : Nat) ≤ ([5, 6] : List Int).length) ∧
    (mk_tls_send_file acceptAll [5, 6] 1 0 0).ret
      = ((([5, 6] : List Int).length - 1 : Nat) : Int) ∧
    (mk_tls_send_file acceptAll [5, 6] 1 0 0).handed
      = ([5, 6] : List Int).drop 1 ∧
    1 ≤ (mk_tls_send_file acceptAll [5, 6] 1 0 0).reads := by
  have h := send_file_zero_count_sends_rest [5, 6] 1 0 (by decide)
  exact ⟨by decide, h.1, h.2.1, h.2.2⟩
